import Mathlib

/-!
Shallow embedding of the audio codec pipeline in `encoder.py`.

Integer samples are modelled as `Int`, byte strings as `List Nat` (each
element a byte value below 256), and the floating-point sample domain as
`Rat`.  The rational model of the normalization arithmetic is exact with
respect to the IEEE-754 double arithmetic the program performs: every value
produced by `((s / 32768.0) + 1.0) / 2.0` for `s` in the 16-bit range, and
by the inverse `(f * 2.0 - 1.0) * 32768.0`, is a dyadic rational whose
numerator fits in a double mantissa, so every operation on that range is
exact in binary64 and agrees with the rational computation.
-/

namespace AutoEnc

/-- Byte size of the struct pack format selected for a sample width by the
dict `{1: b, 2: h, 3: i, 4: i, 8: q}` (lines 37 and 54 of encoder.py):
note width 3 selects the 4-byte signed format `i`. Unsupported widths are a
KeyError in the source; they are mapped to 0 and rejected by callers. -/
def fmtBytes : Nat → Nat
  | 1 => 1
  | 2 => 2
  | 3 => 4
  | 4 => 4
  | 8 => 8
  | _ => 0

/-- Value of a little-endian byte string read as an unsigned integer. -/
def bytesToUnsignedLE : List Nat → Nat
  | [] => 0
  | b :: bs => b + 256 * bytesToUnsignedLE bs

/-- Value of a `w`-byte little-endian byte string read as a signed
(two-complement) integer, as `struct.unpack` does for the signed formats. -/
def toSignedLE (w : Nat) (bs : List Nat) : Int :=
  let u := bytesToUnsignedLE bs
  if u < 2 ^ (8 * w - 1) then (u : Int) else (u : Int) - 2 ^ (8 * w)

/-- Split a list into `k` consecutive chunks of `L` elements each, the way
`np.split(padded, k)` and the count prefix of a struct format string do.
Faithful only when the list length is `k * L`; the lemmas below carry that
hypothesis. -/
def takeChunks {α : Type} : Nat → List α → Nat → List (List α)
  | 0, _, _ => []
  | k + 1, l, L => l.take L :: takeChunks k (l.drop L) L

/-- The width-3 read path of `dataFromWave` (lines 27-32): for each of the
`count` stored 3-byte samples, a zero byte is adjoined in the first
(low-order) position of the little-endian word, making a 4-byte word. -/
def width3Pad : Nat → List Nat → List Nat
  | 0, _ => []
  | k + 1, l => (0 :: l.take 3) ++ width3Pad k (l.drop 3)

/-- `dataFromWave` (lines 13-42) restricted to its sample decoding: `count`
is `samps * chans`, `payload` the raw sample bytes.  For width 3 each 3-byte
sample is zero-extended to a 4-byte word, unpacked with the signed 32-bit
format, and arithmetic-shifted right by 8 bits (`k >> 8` on a Python int is
floor division by 256, hence `Int.fdiv`).  Every other width unpacks the
whole payload with the format of `fmtBytes`. -/
def dataFromWave (w : Nat) (count : Nat) (payload : List Nat) : List Int :=
  let s := if w = 3 then width3Pad count payload else payload
  let xs := (takeChunks count s (fmtBytes w)).map (toSignedLE (fmtBytes w))
  if w = 3 then xs.map (fun k => Int.fdiv k 256) else xs

/-- Specification-side meaning of a stored 3-byte sample: the sign-extended
24-bit signed integer of its raw unsigned value. -/
def signExtend24 (v : Nat) : Int :=
  if v < 2 ^ 23 then (v : Int) else (v : Int) - 2 ^ 24

/-- The header fields and sample payload written by `dataToWave`
(lines 44-58). -/
structure WavFile where
  chans : Nat
  samps : Nat
  sampwidth : Nat
  rate : Nat
  payload : List Nat
  deriving Repr, DecidableEq

/-- Little-endian byte string of length `k` for an unsigned value. -/
def natToLEBytes : Nat → Nat → List Nat
  | 0, _ => []
  | k + 1, v => v % 256 :: natToLEBytes k (v / 256)

/-- `struct.pack` of one sample with the format selected by the width dict
(line 54): the byte size is `fmtBytes w`; a value outside the signed range
of that size raises `struct.error`, modelled as `none`.  Width 0 bytes
models the KeyError for unsupported widths. -/
def packSample (w : Nat) (v : Int) : Option (List Nat) :=
  if fmtBytes w = 0 then none
  else if -(2 ^ (8 * fmtBytes w - 1) : Int) ≤ v ∧ v < 2 ^ (8 * fmtBytes w - 1) then
    some (natToLEBytes (fmtBytes w) (v % (2 ^ (8 * fmtBytes w) : Int)).toNat)
  else none

/-- Pack every sample of a list, failing if any single pack fails. -/
def packAll (w : Nat) : List Int → Option (List (List Nat))
  | [] => some []
  | v :: vs =>
    match packSample w v, packAll w vs with
    | some b, some bs => some (b :: bs)
    | _, _ => none

/-- The samples the write loop of `dataToWave` consumes: `data[i]` for
`i` in `range(samps * chans)` (lines 56-57). -/
def writtenSamples (data : List Int) (samps chans : Nat) : List Int :=
  data.take (samps * chans)

/-- `dataToWave` (lines 44-58): sets the header from its arguments (the
declared sample width is the original `sampwidth`), then packs the first
`samps * chans` samples with the format of `fmtBytes sampwidth`.  `none`
models the IndexError when `data` is too short and the `struct.error` or
KeyError from packing. -/
def dataToWave (data : List Int) (chans samps sampwidth rate : Nat) :
    Option WavFile :=
  if samps * chans ≤ data.length then
    match packAll sampwidth (writtenSamples data samps chans) with
    | some bss => some ⟨chans, samps, sampwidth, rate, bss.flatten⟩
    | none => none
  else none

/-- `norm` (lines 61-70): clamp an integer to the 16-bit signed range. -/
def norm (x : Int) : Int :=
  if x < -32768 then -32768
  else if x > 32767 then 32767
  else x

/-- Forward normalization (lines 88-90):
`f = ((s / 32768.0) + 1.0) / 2.0`, exact in the rational model. -/
def Normalizer_forward (s : Int) : Rat :=
  (((s : Rat) / 32768) + 1) / 2

/-- Truncation toward zero, the conversion `numpy.astype(int)` performs on
a float (C-style float-to-integer cast). -/
def truncQ (q : Rat) : Int :=
  if 0 ≤ q then ⌊q⌋ else ⌈q⌉

/-- The denormalization of line 158:
`(((out * 2.0) - 1.0) * float(pow(2, 15))).astype(int)`. -/
def denormalize (f : Rat) : Int :=
  truncQ ((f * 2 - 1) * 32768)

/-- The full inverse of the Normalizer as decode applies it (lines
158-160): denormalize to an integer, then clamp with `norm`. -/
def Normalizer_inverse (f : Rat) : Int :=
  norm (denormalize f)

/-- `padAndSplit` exactly as encode performs it (lines 92-99): with
`n = len(data)`, the padded size is `n + (L - n % L)`, the data is placed
at the front of a zero array of that size, and the result is split into
`p_size // L` equal chunks. -/
def padAndSplit (flat : List Rat) (L : Nat) : List (List Rat) :=
  let n := flat.length
  let pSize := n + (L - n % L)
  takeChunks (pSize / L) (flat ++ List.replicate (pSize - n) 0) L

/-- The framing stage of `encode` (lines 87-99) in source order: the
samples are normalized first (lines 88-90) and the normalized float
sequence is then padded with zeros and split (lines 92-99). -/
def encodeFrames (samples : List Int) (L : Nat) : List (List Rat) :=
  padAndSplit (samples.map Normalizer_forward) L

/-- The data artifact written by `np.savez_compressed` (line 134): the
latent array and the parameter array `[chans, samps, width, samp_rate]`. -/
structure Container where
  latents : List (List Rat)
  params : List Nat
  deriving Repr, DecidableEq

/-- `encode` (lines 73-136) with the trained transform abstracted as `enc`
(the identity function models the identity transform of the spec).  The
frame length is `samp_rate // 100`; a zero frame length is the
ZeroDivisionError of line 94, modelled as `none`. -/
def encodePipeline (enc : List (List Rat) → List (List Rat))
    (samples : List Int) (chans samps sampwidth samp_rate : Nat) :
    Option Container :=
  let rate := samp_rate / 100
  if rate = 0 then none
  else some ⟨enc (encodeFrames samples rate), [chans, samps, sampwidth, samp_rate]⟩

/-- `decode` (lines 138-162) with the loaded decoder abstracted as `dec`:
reads the four parameters from the container in index order 0..3,
concatenates the decoded frames, denormalizes, clamps with `norm`, and
writes with `dataToWave` using exactly those parameters. -/
def decodePipeline (dec : List (List Rat) → List (List Rat))
    (c : Container) : Option WavFile :=
  let chans := c.params.getD 0 0
  let samps := c.params.getD 1 0
  let width := c.params.getD 2 0
  let samp_rate := c.params.getD 3 0
  let out := ((dec c.latents).flatten.map denormalize).map norm
  dataToWave out chans samps width samp_rate

/-! ### Helper lemmas on chunking and packing -/

theorem takeChunks_spec {α : Type} (L : Nat) (hL : 0 < L) :
    ∀ (k : Nat) (l : List α), l.length = k * L →
      (takeChunks k l L).length = k ∧
      (∀ f ∈ takeChunks k l L, f.length = L) ∧
      (takeChunks k l L).flatten = l := by
  intro k
  induction k with
  | zero =>
    intro l h
    have : l = [] := List.eq_nil_of_length_eq_zero (by simpa using h)
    subst this
    simp [takeChunks]
  | succ k ih =>
    intro l h
    have hLle : L ≤ l.length := by
      rw [h, Nat.succ_mul]; omega
    have hdrop : (l.drop L).length = k * L := by
      rw [List.length_drop, h, Nat.succ_mul]; omega
    obtain ⟨ih1, ih2, ih3⟩ := ih (l.drop L) hdrop
    refine ⟨?_, ?_, ?_⟩
    · simp [takeChunks, ih1]
    · intro f hf
      simp only [takeChunks, List.mem_cons] at hf
      rcases hf with hf | hf
      · subst hf
        simp [List.length_take]
        omega
      · exact ih2 f hf
    · simp only [takeChunks, List.flatten_cons, ih3]
      exact List.take_append_drop L l

theorem takeChunks_append {α : Type} (L j : Nat) (l2 : List α) :
    ∀ (k : Nat) (l : List α), l.length = k * L →
      takeChunks (k + j) (l ++ l2) L = takeChunks k l L ++ takeChunks j l2 L := by
  intro k
  induction k with
  | zero =>
    intro l h
    have : l = [] := List.eq_nil_of_length_eq_zero (by simpa using h)
    subst this
    simp [takeChunks]
  | succ k ih =>
    intro l h
    have hLle : L ≤ l.length := by
      rw [h, Nat.succ_mul]; omega
    have hdrop : (l.drop L).length = k * L := by
      rw [List.length_drop, h, Nat.succ_mul]; omega
    have harr : k + 1 + j = (k + j) + 1 := by omega
    rw [harr]
    simp only [takeChunks]
    rw [List.take_append_of_le_length hLle, List.drop_append_of_le_length hLle,
      ih (l.drop L) hdrop]
    simp

theorem pSize_eq (n L : Nat) (hL : 0 < L) :
    n + (L - n % L) = (n / L + 1) * L := by
  have h2 : n % L < L := Nat.mod_lt n hL
  have h1 : L * (n / L) + n % L = n := Nat.div_add_mod n L
  generalize hq : n / L = q at h1 ⊢
  generalize hr : n % L = r at h1 h2 ⊢
  have h5 : r + (L - r) = L := by omega
  calc n + (L - r) = L * q + r + (L - r) := by rw [h1]
    _ = L * q + (r + (L - r)) := Nat.add_assoc _ _ _
    _ = L * q + L := by rw [h5]
    _ = (q + 1) * L := by ring

theorem padAndSplit_eq (flat : List Rat) (L : Nat) (hL : 0 < L) :
    padAndSplit flat L =
      takeChunks (flat.length / L + 1)
        (flat ++ List.replicate (L - flat.length % L) 0) L := by
  have hps := pSize_eq flat.length L hL
  have hdiv : (flat.length + (L - flat.length % L)) / L = flat.length / L + 1 := by
    rw [hps, Nat.mul_div_cancel _ hL]
  have hsub : flat.length + (L - flat.length % L) - flat.length
      = L - flat.length % L := by omega
  simp only [padAndSplit, hdiv, hsub]

theorem padded_length (flat : List Rat) (L : Nat) (hL : 0 < L) :
    (flat ++ List.replicate (L - flat.length % L) 0).length
      = (flat.length / L + 1) * L := by
  rw [List.length_append, List.length_replicate, pSize_eq flat.length L hL]

theorem norm_range (x : Int) : -32768 ≤ norm x ∧ norm x ≤ 32767 := by
  unfold norm
  split <;> [omega; split <;> omega]

theorem natToLEBytes_length : ∀ (k v : Nat), (natToLEBytes k v).length = k := by
  intro k
  induction k with
  | zero => intro v; rfl
  | succ k ih => intro v; simp [natToLEBytes, ih]

theorem packSample_some (w : Nat) (v : Int) (hfb : fmtBytes w ≠ 0)
    (h1 : -(2 ^ (8 * fmtBytes w - 1) : Int) ≤ v)
    (h2 : v < 2 ^ (8 * fmtBytes w - 1)) :
    ∃ b, packSample w v = some b ∧ b.length = fmtBytes w := by
  refine ⟨natToLEBytes (fmtBytes w) (v % (2 ^ (8 * fmtBytes w) : Int)).toNat, ?_, ?_⟩
  · simp only [packSample, hfb, if_false, if_pos (And.intro h1 h2)]
  · exact natToLEBytes_length _ _

theorem packAll_some (w : Nat) (hfb : fmtBytes w ≠ 0) :
    ∀ l : List Int,
      (∀ v ∈ l, -(2 ^ (8 * fmtBytes w - 1) : Int) ≤ v ∧ v < 2 ^ (8 * fmtBytes w - 1)) →
      ∃ bss, packAll w l = some bss ∧ bss.flatten.length = fmtBytes w * l.length := by
  intro l
  induction l with
  | nil => intro _; exact ⟨[], rfl, by simp⟩
  | cons v vs ih =>
    intro hmem
    obtain ⟨hv1, hv2⟩ := hmem v (List.mem_cons_self v vs)
    obtain ⟨b, hb, hblen⟩ := packSample_some w v hfb hv1 hv2
    obtain ⟨bss, hbss, hbsslen⟩ := ih (fun x hx => hmem x (List.mem_cons_of_mem v hx))
    refine ⟨b :: bss, ?_, ?_⟩
    · simp [packAll, hb, hbss]
    · simp [List.flatten_cons, hblen, hbsslen, Nat.mul_succ, Nat.add_comm]

theorem padAndSplit_flatten (flat : List Rat) (L : Nat) (hL : 0 < L) :
    (padAndSplit flat L).flatten
      = flat ++ List.replicate (L - flat.length % L) 0 := by
  rw [padAndSplit_eq flat L hL]
  exact (takeChunks_spec L hL _ _ (padded_length flat L hL)).2.2

theorem truncQ_prop (q : Rat) :
    |(truncQ q : Rat) - q| < 1 ∧ |(truncQ q : Rat)| ≤ |q| := by
  unfold truncQ
  by_cases h : 0 ≤ q
  · rw [if_pos h]
    have h1 : ((⌊q⌋ : Int) : Rat) ≤ q := Int.floor_le q
    have h2 : q - 1 < ((⌊q⌋ : Int) : Rat) := Int.sub_one_lt_floor q
    have h3 : (0 : Rat) ≤ ((⌊q⌋ : Int) : Rat) := by
      exact_mod_cast Int.floor_nonneg.mpr h
    constructor
    · rw [abs_lt]; constructor <;> linarith
    · rw [abs_of_nonneg h3, abs_of_nonneg h]; linarith
  · push_neg at h
    rw [if_neg (not_le.mpr h)]
    have h1 : q ≤ ((⌈q⌉ : Int) : Rat) := Int.le_ceil q
    have h2 : ((⌈q⌉ : Int) : Rat) < q + 1 := Int.ceil_lt_add_one q
    have h3 : ((⌈q⌉ : Int) : Rat) ≤ 0 := by
      have hc : ⌈q⌉ ≤ (0 : Int) := Int.ceil_le.mpr (by exact_mod_cast h.le)
      exact_mod_cast hc
    constructor
    · rw [abs_lt]; constructor <;> linarith
    · rw [abs_of_nonpos h3, abs_of_nonpos h.le]; linarith

theorem truncQ_intCast (s : Int) : truncQ ((s : Int) : Rat) = s := by
  unfold truncQ
  split
  · exact Int.floor_intCast s
  · exact Int.ceil_intCast s

theorem forward_inverse_id (s : Int) :
    (Normalizer_forward s * 2 - 1) * 32768 = (s : Rat) := by
  unfold Normalizer_forward
  field_simp
  ring

theorem packSample_length (w : Nat) (v : Int) (b : List Nat)
    (h : packSample w v = some b) : b.length = fmtBytes w := by
  unfold packSample at h
  split at h
  · cases h
  · split at h
    · injection h with h
      rw [← h]
      exact natToLEBytes_length _ _
    · cases h

theorem packAll_length (w : Nat) :
    ∀ (l : List Int) (bss : List (List Nat)), packAll w l = some bss →
      bss.flatten.length = fmtBytes w * l.length := by
  intro l
  induction l with
  | nil =>
    intro bss h
    injection h with h
    rw [← h]
    simp
  | cons v vs ih =>
    intro bss h
    unfold packAll at h
    cases hp : packSample w v with
    | none => rw [hp] at h; cases h
    | some b =>
      cases hq : packAll w vs with
      | none => rw [hp, hq] at h; cases h
      | some bs =>
        rw [hp, hq] at h
        injection h with h
        rw [← h]
        simp only [List.flatten_cons, List.length_append,
          packSample_length w v b hp, ih bs hq, List.length_cons]
        ring

theorem dataToWave_fields (data : List Int) (chans samps w rate : Nat)
    (wf : WavFile) (h : dataToWave data chans samps w rate = some wf) :
    wf.chans = chans ∧ wf.samps = samps ∧ wf.sampwidth = w ∧ wf.rate = rate := by
  unfold dataToWave at h
  by_cases hle : samps * chans ≤ data.length
  · rw [if_pos hle] at h
    cases hp : packAll w (writtenSamples data samps chans) with
    | none => rw [hp] at h; cases h
    | some bss =>
      rw [hp] at h
      injection h with h
      rw [← h]
      exact ⟨rfl, rfl, rfl, rfl⟩
  · rw [if_neg hle] at h; cases h

/-! ### Claims -/

/-- C1: for a flat sequence of length `n ≥ 1` and frame length `L ≥ 1`,
`padAndSplit` yields exactly `n / L + 1` frames, each of length `L`; the
total padded length is `n + (L - n % L)`, a multiple of `L`, strictly
greater than `n`; and when `L` divides `n` the appended last frame is a
full all-zero frame. -/
theorem claim_C1 (flat : List Rat) (L : Nat) (hn : 1 ≤ flat.length)
    (hL : 1 ≤ L) :
    (padAndSplit flat L).length = flat.length / L + 1 ∧
    (∀ f ∈ padAndSplit flat L, f.length = L) ∧
    (padAndSplit flat L).flatten.length = flat.length + (L - flat.length % L) ∧
    L ∣ (padAndSplit flat L).flatten.length ∧
    flat.length < (padAndSplit flat L).flatten.length ∧
    (flat.length % L = 0 →
      (padAndSplit flat L).getLast? = some (List.replicate L 0)) := by
  have hL0 : 0 < L := hL
  have hlen := padded_length flat L hL0
  obtain ⟨h1, h2, h3⟩ := takeChunks_spec L hL0 (flat.length / L + 1) _ hlen
  rw [padAndSplit_eq flat L hL0]
  have hflat : (takeChunks (flat.length / L + 1)
      (flat ++ List.replicate (L - flat.length % L) 0) L).flatten.length
      = flat.length + (L - flat.length % L) := by
    rw [h3, List.length_append, List.length_replicate]
  refine ⟨h1, h2, hflat, ?_, ?_, ?_⟩
  · rw [hflat, pSize_eq flat.length L hL0]
    exact dvd_mul_left L _
  · rw [hflat]
    have : flat.length % L < L := Nat.mod_lt _ hL0
    omega
  · intro hmod
    have hrep : L - flat.length % L = L := by omega
    have hflen : flat.length = (flat.length / L) * L := by
      conv_lhs => rw [← Nat.div_add_mod flat.length L]
      rw [hmod]; ring
    rw [hrep, takeChunks_append L 1 (List.replicate L 0) (flat.length / L) flat hflen]
    have hone : takeChunks 1 (List.replicate L (0 : Rat)) L = [List.replicate L 0] := by
      simp [takeChunks, List.take_replicate]
    rw [hone, List.getLast?_concat]

/-- C1 witness: the example of the claim itself, a 200-sample sequence with
frame length 100 yields 3 frames, the last being a full zero frame. -/
theorem claim_C1_witness :
    (padAndSplit (List.replicate 200 (0 : Rat)) 100).length = 3 ∧
    (padAndSplit (List.replicate 200 (0 : Rat)) 100).getLast?
      = some (List.replicate 100 0) := by
  have hlen : (List.replicate 200 (0 : Rat)).length = 200 := List.length_replicate 200 0
  have h := claim_C1 (List.replicate 200 (0 : Rat)) 100 (by rw [hlen]; norm_num)
    (by norm_num)
  refine ⟨?_, h.2.2.2.2.2 (by rw [hlen])⟩
  have h1 := h.1
  rw [hlen] at h1
  norm_num at h1
  exact h1

/-- C3: with an identity transform between forward and inverse
normalization, the round trip differs from the original 16-bit sample by at
most 1 (in the exact rational model it is in fact equal). -/
theorem claim_C3 (s : Int) (h1 : -32768 ≤ s) (h2 : s ≤ 32767) :
    |Normalizer_inverse (Normalizer_forward s) - s| ≤ 1 := by
  have hd : denormalize (Normalizer_forward s) = s := by
    unfold denormalize
    rw [forward_inverse_id, truncQ_intCast]
  have hn : norm s = s := by
    unfold norm
    rw [if_neg (by omega), if_neg (by omega)]
  unfold Normalizer_inverse
  rw [hd, hn]
  simp

/-- C3 witness at the concrete sample 5. -/
theorem claim_C3_witness :
    |Normalizer_inverse (Normalizer_forward 5) - 5| ≤ 1 :=
  claim_C3 5 (by norm_num) (by norm_num)

/-- C4 counterexample: at the normalized value `f = 131079 / 262144` the
raw denormalized value is `7 / 4`; the code (`astype(int)`, truncation
toward zero) yields 1 while the round-to-nearest of the claim yields 2. -/
theorem claim_C4_counterexample :
    Normalizer_inverse (131079 / 262144) = 1 ∧
    norm (round ((((131079 : Rat) / 262144) * 2 - 1) * 32768)) = 2 ∧
    (1 : Int) ≠ 2 := by
  refine ⟨?_, ?_, by decide⟩
  · norm_num [Normalizer_inverse, denormalize, truncQ, AutoEnc.norm]
  · norm_num [AutoEnc.norm, round_eq]

/-- C4 amended: the inverse converts `(f * 2 - 1) * 32768` to an integer by
truncation toward zero (the behavior of `astype(int)`), not by rounding to
nearest, and then clamps: below -32768 becomes -32768, above 32767 becomes
32767, anything else is unchanged. -/
theorem claim_C4_amended (f : Rat) :
    (denormalize f < -32768 → Normalizer_inverse f = -32768) ∧
    (32767 < denormalize f → Normalizer_inverse f = 32767) ∧
    (-32768 ≤ denormalize f → denormalize f ≤ 32767 →
      Normalizer_inverse f = denormalize f) ∧
    |(denormalize f : Rat) - (f * 2 - 1) * 32768| < 1 ∧
    |(denormalize f : Rat)| ≤ |(f * 2 - 1) * 32768| := by
  obtain ⟨ht1, ht2⟩ := truncQ_prop ((f * 2 - 1) * 32768)
  refine ⟨fun h => ?_, fun h => ?_, fun h1 h2 => ?_, ht1, ht2⟩
  · unfold Normalizer_inverse norm
    rw [if_pos h]
  · unfold Normalizer_inverse norm
    rw [if_neg (by omega), if_pos h]
  · unfold Normalizer_inverse norm
    rw [if_neg (by omega), if_neg (by omega)]

/-- C4 amended witness: at `f = 1` the denormalized value 32768 is clamped
to 32767. -/
theorem claim_C4_amended_witness : Normalizer_inverse 1 = 32767 := by
  apply (claim_C4_amended 1).2.1
  norm_num [denormalize, truncQ]

/-- C5 counterexample: in the code the padding is applied after
normalization and its value is 0.0, not the normalized image 0.5 of the
integer sample 0: for the one-sample stream `[0]` and frame length 2, the
single frame is `[0.5, 0.0]`, whose padding position differs from
`Normalizer_forward 0`. -/
theorem claim_C5_counterexample :
    encodeFrames [0] 2 = [[Normalizer_forward 0, 0]] ∧
    (0 : Rat) ≠ Normalizer_forward 0 := by
  constructor
  · norm_num [encodeFrames, padAndSplit, takeChunks, Normalizer_forward]
  · norm_num [Normalizer_forward]

/-- C5 amended: in the encode pipeline normalization comes first (lines
88-90) and the padding is appended afterwards (lines 92-96) with the value
0.0 of the normalized domain, so the flattened frames are the normalized
samples followed by a zero tail. -/
theorem claim_C5_amended (samples : List Int) (L : Nat) (hL : 1 ≤ L) :
    (encodeFrames samples L).flatten
      = samples.map Normalizer_forward
        ++ List.replicate (L - samples.length % L) 0 := by
  unfold encodeFrames
  rw [padAndSplit_flatten _ L hL, List.length_map]

/-- C5 amended witness at the one-sample stream `[0]`, frame length 2. -/
theorem claim_C5_amended_witness :
    (encodeFrames [0] 2).flatten
      = [0].map Normalizer_forward ++ List.replicate 1 0 := by
  have h := claim_C5_amended [0] 2 (by norm_num)
  simpa using h

/-- C2: decoding frames produced from a stream of `samps * chans` samples,
the write step consumes exactly `samps * chans` reconstructed values and,
for every sample width whose pack format can hold the clamped range, writes
exactly that many packed samples, however many padding frames the encode
side appended. -/
theorem claim_C2 (samples : List Int) (chans samps samp_rate w L : Nat)
    (hL : 1 ≤ L) (hn : samples.length = samps * chans)
    (hw : w = 2 ∨ w = 3 ∨ w = 4 ∨ w = 8) :
    (writtenSamples (((encodeFrames samples L).flatten.map denormalize).map norm)
        samps chans).length = samps * chans ∧
    ∃ wf, dataToWave (((encodeFrames samples L).flatten.map denormalize).map norm)
        chans samps w samp_rate = some wf ∧
      wf.payload.length = fmtBytes w * (samps * chans) := by
  have hL0 : 0 < L := hL
  have hflat : (encodeFrames samples L).flatten
      = samples.map Normalizer_forward
        ++ List.replicate (L - samples.length % L) 0 := by
    unfold encodeFrames
    rw [padAndSplit_flatten _ L hL0, List.length_map]
  have hlen : ((((encodeFrames samples L).flatten.map denormalize).map norm)).length
      = samples.length + (L - samples.length % L) := by
    rw [List.length_map, List.length_map, hflat, List.length_append,
      List.length_map, List.length_replicate]
  have hge : samps * chans
      ≤ ((((encodeFrames samples L).flatten.map denormalize).map norm)).length := by
    rw [hlen, ← hn]; omega
  have hwlen : (writtenSamples
      (((encodeFrames samples L).flatten.map denormalize).map norm)
      samps chans).length = samps * chans := by
    unfold writtenSamples
    rw [List.length_take]
    omega
  refine ⟨hwlen, ?_⟩
  have hfb0 : fmtBytes w ≠ 0 := by
    rcases hw with rfl | rfl | rfl | rfl <;> simp [fmtBytes]
  have hpow : (32768 : Int) ≤ 2 ^ (8 * fmtBytes w - 1) := by
    rcases hw with rfl | rfl | rfl | rfl <;> norm_num [fmtBytes]
  have hrange : ∀ v ∈ writtenSamples
      (((encodeFrames samples L).flatten.map denormalize).map norm) samps chans,
      -(2 ^ (8 * fmtBytes w - 1) : Int) ≤ v ∧ v < 2 ^ (8 * fmtBytes w - 1) := by
    intro v hv
    have hv2 : v ∈ ((encodeFrames samples L).flatten.map denormalize).map norm :=
      List.take_subset _ _ hv
    obtain ⟨x, -, rfl⟩ := List.mem_map.mp hv2
    obtain ⟨hx1, hx2⟩ := norm_range x
    constructor
    · linarith
    · linarith
  obtain ⟨bss, hbss, hbsslen⟩ := packAll_some w hfb0 _ hrange
  refine ⟨⟨chans, samps, w, samp_rate, bss.flatten⟩, ?_, ?_⟩
  · unfold dataToWave
    rw [if_pos hge, hbss]
  · show bss.flatten.length = fmtBytes w * (samps * chans)
    rw [hbsslen, hwlen]

/-- C2 witness: one-sample mono stream, width 2, frame length 1. -/
theorem claim_C2_witness :
    ∃ wf, dataToWave (((encodeFrames [0] 1).flatten.map denormalize).map norm)
        1 1 2 100 = some wf ∧
      wf.payload.length = fmtBytes 2 * (1 * 1) :=
  (claim_C2 [0] 1 1 100 2 1 (by norm_num) (by norm_num) (Or.inl rfl)).2

/-- C6: for every transform pair, the parameter tuple the decoder reads
from the container written by encode is the original stream tuple
`(chans, samps, width, rate)`, and those are the header values the output
write receives. -/
theorem claim_C6 (enc dec : List (List Rat) → List (List Rat))
    (samples : List Int) (chans samps w samp_rate : Nat)
    (c : Container) (wf : WavFile)
    (h1 : encodePipeline enc samples chans samps w samp_rate = some c)
    (h2 : decodePipeline dec c = some wf) :
    c.params = [chans, samps, w, samp_rate] ∧
    wf.chans = chans ∧ wf.samps = samps ∧ wf.sampwidth = w ∧
    wf.rate = samp_rate := by
  unfold encodePipeline at h1
  by_cases hr : samp_rate / 100 = 0
  · rw [if_pos hr] at h1; cases h1
  · rw [if_neg hr] at h1
    injection h1 with h1
    subst h1
    refine ⟨rfl, ?_⟩
    unfold decodePipeline at h2
    simp only [List.getD_cons_zero, List.getD_cons_succ] at h2
    exact dataToWave_fields _ _ _ _ _ _ h2

/-- C6 witness: identity transform, mono width-2 stream at 100 Hz. -/
theorem claim_C6_witness :
    ∃ c wf, encodePipeline id [0] 1 1 2 100 = some c ∧
      decodePipeline id c = some wf ∧
      wf.chans = 1 ∧ wf.samps = 1 ∧ wf.sampwidth = 2 ∧ wf.rate = 100 := by
  have h1 : encodePipeline id [0] 1 1 2 100
      = some ⟨[[1/2], [0]], [1, 1, 2, 100]⟩ := by
    norm_num [encodePipeline, encodeFrames, padAndSplit, takeChunks,
      Normalizer_forward]
  have h2 : decodePipeline id ⟨[[1/2], [0]], [1, 1, 2, 100]⟩
      = some ⟨1, 1, 2, 100, [0, 0]⟩ := by
    norm_num [decodePipeline, dataToWave, packAll, packSample, fmtBytes,
      writtenSamples, denormalize, truncQ, AutoEnc.norm, natToLEBytes]
  obtain ⟨-, hc, hs, hw, hr⟩ := claim_C6 id id [0] 1 1 2 100 _ _ h1 h2
  exact ⟨_, _, h1, h2, hc, hs, hw, hr⟩

theorem dataFromWave3_single (b0 b1 b2 : Nat) (h0 : b0 < 256) (h1 : b1 < 256)
    (h2 : b2 < 256) :
    dataFromWave 3 1 [b0, b1, b2] = [signExtend24 (b0 + 256 * b1 + 65536 * b2)] := by
  have hcalc : dataFromWave 3 1 [b0, b1, b2]
      = [Int.fdiv (toSignedLE 4 [0, b0, b1, b2]) 256] := by
    simp [dataFromWave, width3Pad, takeChunks, fmtBytes]
  rw [hcalc]
  have hu : bytesToUnsignedLE [0, b0, b1, b2]
      = 256 * (b0 + 256 * b1 + 65536 * b2) := by
    simp [bytesToUnsignedLE]
    ring
  simp only [toSignedLE, signExtend24, hu]
  by_cases hsmall : b0 + 256 * b1 + 65536 * b2 < 2 ^ 23
  · rw [if_pos (by omega : 256 * (b0 + 256 * b1 + 65536 * b2) < 2 ^ (8 * 4 - 1)),
      if_pos hsmall]
    have hc : ((256 * (b0 + 256 * b1 + 65536 * b2) : Nat) : Int)
        = 256 * ((b0 + 256 * b1 + 65536 * b2 : Nat) : Int) := by
      push_cast
      ring
    rw [hc, Int.mul_fdiv_cancel_left _ (by norm_num)]
  · rw [if_neg (by omega : ¬ 256 * (b0 + 256 * b1 + 65536 * b2) < 2 ^ (8 * 4 - 1)),
      if_neg hsmall]
    have hc : ((256 * (b0 + 256 * b1 + 65536 * b2) : Nat) : Int) - 2 ^ (8 * 4)
        = 256 * (((b0 + 256 * b1 + 65536 * b2 : Nat) : Int) - 2 ^ 24) := by
      push_cast
      ring
    rw [hc, Int.mul_fdiv_cancel_left _ (by norm_num)]

/-- C7: the width-3 read path turns each stored 3-byte little-endian value
into its sign-extended 24-bit signed integer by adjoining a zero byte in
the low-order position, unpacking as signed 32-bit, and arithmetic-shifting
right by 8; the widths 1, 2, 4, 8 unpack the payload with the signed
little-endian format of exactly their own byte size. -/
theorem claim_C7 (b0 b1 b2 : Nat) (h0 : b0 < 256) (h1 : b1 < 256)
    (h2 : b2 < 256) (w : Nat) (hw : w = 1 ∨ w = 2 ∨ w = 4 ∨ w = 8)
    (count : Nat) (payload : List Nat) :
    dataFromWave 3 1 [b0, b1, b2] = [signExtend24 (b0 + 256 * b1 + 65536 * b2)] ∧
    fmtBytes w = w ∧
    dataFromWave w count payload = (takeChunks count payload w).map (toSignedLE w) := by
  refine ⟨dataFromWave3_single b0 b1 b2 h0 h1 h2, ?_, ?_⟩
  · rcases hw with rfl | rfl | rfl | rfl <;> rfl
  · rcases hw with rfl | rfl | rfl | rfl <;> simp [dataFromWave, fmtBytes]

/-- C7 witness: the sample `80 00 00` is read as -8388608, and a width-2
payload of two samples is unpacked with the 2-byte signed format. -/
theorem claim_C7_witness :
    dataFromWave 3 1 [0, 0, 128] = [signExtend24 (0 + 256 * 0 + 65536 * 128)] ∧
    fmtBytes 2 = 2 ∧
    dataFromWave 2 2 [1, 0, 255, 255]
      = (takeChunks 2 [1, 0, 255, 255] 2).map (toSignedLE 2) :=
  claim_C7 0 0 128 (by norm_num) (by norm_num) (by norm_num) 2
    (Or.inr (Or.inl rfl)) 2 [1, 0, 255, 255]

/-- C8: `dataToWave` on a width-3 stream keeps the declared header width 3
but packs every sample with the 4-byte signed format, so the written
payload holds 4 bytes per sample, not the 3 bytes per sample of the read
path. -/
theorem claim_C8 (data : List Int) (chans samps rate : Nat) (wf : WavFile)
    (h : dataToWave data chans samps 3 rate = some wf) :
    wf.sampwidth = 3 ∧ fmtBytes 3 = 4 ∧
    wf.payload.length = 4 * (samps * chans) ∧
    (1 ≤ samps * chans → wf.payload.length ≠ 3 * (samps * chans)) := by
  unfold dataToWave at h
  by_cases hle : samps * chans ≤ data.length
  · rw [if_pos hle] at h
    cases hp : packAll 3 (writtenSamples data samps chans) with
    | none => rw [hp] at h; cases h
    | some bss =>
      rw [hp] at h
      injection h with h
      have hblen : bss.flatten.length = 4 * (samps * chans) := by
        rw [packAll_length 3 _ bss hp]
        unfold writtenSamples
        rw [List.length_take]
        have : samps * chans ⊓ data.length = samps * chans := by omega
        rw [this]
        rfl
      rw [← h]
      refine ⟨rfl, rfl, hblen, fun hpos => ?_⟩
      rw [hblen]
      omega
  · rw [if_neg hle] at h; cases h

/-- C8 witness: a one-sample width-3 stream is written with a 4-byte
payload. -/
theorem claim_C8_witness :
    (⟨1, 1, 3, 100, [5, 0, 0, 0]⟩ : WavFile).payload.length = 4 * (1 * 1) ∧
    (⟨1, 1, 3, 100, [5, 0, 0, 0]⟩ : WavFile).payload.length ≠ 3 * (1 * 1) := by
  have h : dataToWave [5] 1 1 3 100 = some ⟨1, 1, 3, 100, [5, 0, 0, 0]⟩ := by
    decide
  have hc := claim_C8 [5] 1 1 100 _ h
  exact ⟨hc.2.2.1, hc.2.2.2 (by norm_num)⟩

/-- C9 counterexample: a width-4 stream can contain the sample 65536 (bytes
`00 00 01 00`), whose normalized image is 1.5, outside `[0, 1]`. -/
theorem claim_C9_counterexample :
    dataFromWave 4 1 [0, 0, 1, 0] = [65536] ∧
    encodeFrames [65536] 1 = [[3/2], [0]] ∧
    ¬ ((3 : Rat)/2 ≤ 1) := by
  refine ⟨by decide, ?_, by norm_num⟩
  norm_num [encodeFrames, padAndSplit, takeChunks, Normalizer_forward]

/-- C9 amended: when every sample of the stream lies in the 16-bit range
`[-32768, 32767]` (as for width-1 and width-2 streams), every value of
every normalized frame lies in `[0, 1]`. -/
theorem claim_C9_amended (samples : List Int) (L : Nat) (hL : 1 ≤ L)
    (hbound : ∀ s ∈ samples, -32768 ≤ s ∧ s ≤ 32767) :
    ∀ f ∈ encodeFrames samples L, ∀ v ∈ f, 0 ≤ v ∧ v ≤ 1 := by
  intro f hf v hv
  have hvflat : v ∈ (encodeFrames samples L).flatten :=
    List.mem_flatten.mpr ⟨f, hf, hv⟩
  unfold encodeFrames at hvflat
  rw [padAndSplit_flatten _ L hL] at hvflat
  rcases List.mem_append.mp hvflat with hmem | hmem
  · obtain ⟨s, hs, rfl⟩ := List.mem_map.mp hmem
    obtain ⟨hs1, hs2⟩ := hbound s hs
    have hc1 : (-32768 : Rat) ≤ (s : Rat) := by exact_mod_cast hs1
    have hc2 : (s : Rat) ≤ 32767 := by exact_mod_cast hs2
    unfold Normalizer_forward
    have hd1 : (-1 : Rat) ≤ (s : Rat) / 32768 := by
      rw [le_div_iff (by norm_num : (0 : Rat) < 32768)]
      linarith
    have hd2 : (s : Rat) / 32768 ≤ 1 := by
      rw [div_le_iff (by norm_num : (0 : Rat) < 32768)]
      linarith
    constructor <;> [linarith; linarith]
  · rw [List.eq_of_mem_replicate hmem]
    norm_num

/-- C9 amended witness: the all-in-range stream `[0]` with frame length 2
yields the frame `[0.5, 0.0]`, both values in `[0, 1]`. -/
theorem claim_C9_amended_witness :
    0 ≤ ((1 : Rat)/2) ∧ (1 : Rat)/2 ≤ 1 := by
  have hEq : encodeFrames [0] 2 = [[1/2, 0]] := by
    norm_num [encodeFrames, padAndSplit, takeChunks, Normalizer_forward]
  have hb : ∀ s ∈ ([0] : List Int), -32768 ≤ s ∧ s ≤ 32767 := by
    intro s hs
    simp only [List.mem_singleton] at hs
    subst hs
    norm_num
  have hf : [(1 : Rat)/2, 0] ∈ encodeFrames [0] 2 := by
    rw [hEq]
    exact List.mem_singleton.mpr rfl
  exact claim_C9_amended [0] 2 (by norm_num) hb _ hf (1/2)
    (List.mem_cons_self _ _)

/-- C10: there is a normalized decoder output in `[0, 1]` (here `f = 1`)
whose clamped inverse 32767 is outside the width-1 pack range `[-128, 127]`,
so after a successful clamp the width-1 pack step fails and the whole
decode of a width-1 container aborts. -/
theorem claim_C10 :
    (0 : Rat) ≤ 1 ∧ (1 : Rat) ≤ 1 ∧
    Normalizer_inverse 1 = 32767 ∧
    -32768 ≤ Normalizer_inverse 1 ∧ Normalizer_inverse 1 ≤ 32767 ∧
    ¬ (-128 ≤ Normalizer_inverse 1 ∧ Normalizer_inverse 1 < 128) ∧
    packSample 1 (Normalizer_inverse 1) = none ∧
    decodePipeline id ⟨[[1]], [1, 1, 1, 100]⟩ = none := by
  have hinv : Normalizer_inverse 1 = 32767 := by
    norm_num [Normalizer_inverse, denormalize, truncQ, AutoEnc.norm]
  refine ⟨by norm_num, le_refl 1, hinv, ?_, ?_, ?_, ?_, ?_⟩
  · rw [hinv]; norm_num
  · rw [hinv]
  · rw [hinv]; norm_num
  · rw [hinv]
    norm_num [packSample, fmtBytes]
  · norm_num [decodePipeline, dataToWave, packAll, packSample, fmtBytes,
      writtenSamples, denormalize, truncQ, AutoEnc.norm]

end AutoEnc
